import Mathlib

/-! Verification development for `generate.go`, the standard-package index generator.

The program walks the source roots of a Go installation, records one `stdpkg`
per visited directory in the global map `pkgs`, and prints that map as Go
source text which is then patched by a fixed sequence of `bytes.Replace`
passes.

Modelling choices.

* A Go `string` / `[]byte` is a `List Char`.  Comparison is lexicographic on
  code points, which is the byte-wise order of the UTF-8 encodings.
* The file system under a source root is a finite tree (`FileInfo`).  A
  directory carries `some children` (the slice returned by `Readdir(-1)`, in
  the order returned) or `none` when `os.Open` or `Readdir` fails.  The
  directory found at `filepath.Join(root, importpath)` is the subtree reached
  by descending along the names, which is how `load` obtains it.
* Paths use the Unix separator, so `filepath.Join` and `path.Base` agree on
  what a path element is.
* The global `pkgs` map is an association list with one cell per key; the
  order in which `range pkgs` enumerates the keys is a separate argument of
  the emitter (any list of keys).
-/

namespace Generate

/-- A Go string, as the list of its characters. -/
abbrev GoString := List Char

/-! ## `path.Base` and `filepath.Join` -/

/-- The loop of `path.Base` that strips trailing slashes. -/
def stripTrailingSlashes (p : GoString) : GoString :=
  (p.reverse.dropWhile (fun c => c == '/')).reverse

/-- The part of a path after its last slash (the whole path when it has none). -/
def afterLastSlash (p : GoString) : GoString :=
  (p.reverse.takeWhile (fun c => c != '/')).reverse

/-- Go's `path.Base`. -/
def pathBase (p : GoString) : GoString :=
  if p = [] then ['.']
  else
    let e := afterLastSlash (stripTrailingSlashes p)
    if e = [] then ['/'] else e

/-- Go's `strings.Split(s, "/")`. -/
def splitSlash : GoString → List GoString
  | [] => [[]]
  | c :: cs =>
    if c = '/' then [] :: splitSlash cs
    else
      match splitSlash cs with
      | [] => [[c]]
      | s :: ss => (c :: s) :: ss

/-- One iteration of the loop of `filepath.Clean`, on the next path element.
The state is the list of elements written so far and the number of leading
`..` elements that cannot be removed (`dotdot` in the source). -/
def cleanStep (rooted : Bool) (st : List GoString × Nat) (seg : GoString) :
    List GoString × Nat :=
  if seg = [] then st
  else if seg = ['.'] then st
  else if seg = ['.', '.'] then
    if st.2 < st.1.length then (st.1.dropLast, st.2)
    else if rooted then st
    else (st.1 ++ [['.', '.']], st.1.length + 1)
  else (st.1 ++ [seg], st.2)

/-- Go's `filepath.Clean` on Unix. -/
def filepathClean (p : GoString) : GoString :=
  if p = [] then ['.']
  else
    let rooted := p.head? == some '/'
    let out := ((splitSlash p).foldl (cleanStep rooted) ([], 0)).1
    let body := List.intercalate ['/'] out
    let r := if rooted then '/' :: body else body
    if r = [] then ['.'] else r

/-- Go's `filepath.Join` of two elements on Unix. -/
def filepathJoin (a b : GoString) : GoString :=
  if a ≠ [] then filepathClean (a ++ '/' :: b)
  else if b ≠ [] then filepathClean b
  else []

/-! ## The data model -/

/-- The record `stdpkg` of the source. -/
structure stdpkg where
  /-- full pkg import path, e.g. "net/http" -/
  path : GoString
  /-- absolute file path to the pkg directory -/
  dir : GoString
  deriving DecidableEq, Repr

/-- The global `pkgs`, a `map[string][]stdpkg`. -/
abbrev PkgMap := List (GoString × List stdpkg)

/-- The value `pkgs[k]` (the nil slice when the key is absent). -/
def lookup : PkgMap → GoString → List stdpkg
  | [], _ => []
  | (k, v) :: rest, key => if k = key then v else lookup rest key

/-- The statement `pkgs[name] = append(pkgs[name], r)`. -/
def appendPkg : PkgMap → GoString → stdpkg → PkgMap
  | [], name, r => [(name, [r])]
  | (k, v) :: rest, name, r =>
    if k = name then (k, v ++ [r]) :: rest else (k, v) :: appendPkg rest name r

/-- The keys of the map. -/
def keys (pkgs : PkgMap) : List GoString := pkgs.map Prod.fst

/-- An entry of a directory listing, with what lies beneath it. -/
inductive FileInfo where
  | file (name : GoString) : FileInfo
  | dir (name : GoString) (listing : Option (List FileInfo)) : FileInfo

/-- The method `Name()`. -/
def FileInfo.name : FileInfo → GoString
  | .file n => n
  | .dir n _ => n

/-- The method `IsDir()`. -/
def FileInfo.isDir : FileInfo → Bool
  | .file _ => false
  | .dir _ _ => true

/-- The test `c == '.' || ('0' <= c && c <= '9')` of `load`. -/
def specialFirst (c : Char) : Bool :=
  c == '.' || ('0' ≤ c && c ≤ '9')

/-! ## The walker -/

mutual
/-- The function `load`; `node` is the file system object found at
`filepath.Join(root, importpath)`, whose opening and listing `load` attempts. -/
def load (root importpath : GoString) (node : FileInfo) (pkgs : PkgMap) : PkgMap :=
  let name := pathBase importpath
  if name = "testdata".toList then pkgs
  else
    let dir := filepathJoin root importpath
    let pkgs1 := appendPkg pkgs name { path := importpath, dir := dir }
    match node with
    | .file _ => pkgs1
    | .dir _ none => pkgs1
    | .dir _ (some children) => loadChildren root importpath children pkgs1
/-- The loop over `children` at the end of `load`. -/
def loadChildren (root : GoString) : GoString → List FileInfo → PkgMap → PkgMap
  | _, [], pkgs => pkgs
  | importpath, child :: rest, pkgs =>
    if child.name = [] then loadChildren root importpath rest pkgs
    else if specialFirst (child.name.headD ' ') then loadChildren root importpath rest pkgs
    else if child.isDir then
      loadChildren root importpath rest
        (load root (filepathJoin importpath child.name) child pkgs)
    else loadChildren root importpath rest pkgs
end

/-- The inner loop of `main` over the children of one source root. -/
def mainChildren (path : GoString) : List FileInfo → PkgMap → PkgMap
  | [], pkgs => pkgs
  | child :: rest, pkgs =>
    if child.isDir then mainChildren path rest (load path child.name child pkgs)
    else mainChildren path rest pkgs

/-- The state the walk of `main` changes: the map and the log output. -/
structure State where
  pkgs : PkgMap
  /-- one line per `log.Print(err)`, identified by the path that failed -/
  log : List GoString
  deriving DecidableEq

/-- The outer loop of `main` over `ctx.SrcDirs()`: each source root comes with
the result of opening and listing it. -/
def walk : List (GoString × Option (List FileInfo)) → State → State
  | [], s => s
  | (path, none) :: rest, s => walk rest { s with log := s.log ++ [path] }
  | (path, some children) :: rest, s =>
    walk rest { s with pkgs := mainChildren path children s.pkgs }

/-! ## The emitter -/

/-- The double quote character. -/
def dquote : Char := Char.ofNat 34

/-- The backslash character. -/
def backslash : Char := Char.ofNat 92

/-- The digit `lowerhex[n]` of `strconv`. -/
def lowerhex (n : Nat) : Char :=
  "0123456789abcdef".toList.getD (n % 16) '0'

/-- The `width` hexadecimal digits of `n`, most significant first. -/
def hexDigits (width n : Nat) : GoString :=
  (List.range width).reverse.map (fun i => lowerhex (n / 16 ^ i))

/-- Go's `strconv.IsPrint`: decided by range below U+0100, by the Unicode
tables `tbl` of the Go library above. -/
def isPrint (tbl : Char → Bool) (r : Char) : Bool :=
  if r.toNat ≤ 0xFF then
    (0x20 ≤ r.toNat && r.toNat < 0x7F) || (0xA1 ≤ r.toNat && r.toNat != 0xAD)
  else tbl r

/-- The function `appendEscapedRune` of `strconv`, for the double quote. -/
def escapedRune (tbl : Char → Bool) (r : Char) : GoString :=
  if r = dquote ∨ r = backslash then [backslash, r]
  else if isPrint tbl r then [r]
  else if r.toNat = 7 then [backslash, 'a']
  else if r.toNat = 8 then [backslash, 'b']
  else if r.toNat = 12 then [backslash, 'f']
  else if r.toNat = 10 then [backslash, 'n']
  else if r.toNat = 13 then [backslash, 'r']
  else if r.toNat = 9 then [backslash, 't']
  else if r.toNat = 11 then [backslash, 'v']
  else if r.toNat < 0x20 ∨ r.toNat = 0x7F then backslash :: 'x' :: hexDigits 2 r.toNat
  else if r.toNat < 0x10000 then backslash :: 'u' :: hexDigits 4 r.toNat
  else backslash :: 'U' :: hexDigits 8 r.toNat

/-- Go's `strconv.Quote`, which `%#v` applies to a string. -/
def quote (tbl : Char → Bool) (s : GoString) : GoString :=
  dquote :: (s.flatMap (escapedRune tbl)) ++ [dquote]

/-- The verb `%#v` on one `stdpkg`. -/
def sharpVpkg (tbl : Char → Bool) (r : stdpkg) : GoString :=
  "main.stdpkg\x7bpath:".toList ++ quote tbl r.path ++ ", dir:".toList ++
    quote tbl r.dir ++ "\x7d".toList

/-- The verb `%#v` on a `[]stdpkg`. -/
def sharpV (tbl : Char → Bool) (v : List stdpkg) : GoString :=
  if v = [] then "[]main.stdpkg(nil)".toList
  else
    "[]main.stdpkg\x7b".toList ++
      List.intercalate ", ".toList (v.map (sharpVpkg tbl)) ++ "\x7d".toList

/-- The three `buf.WriteString` calls that open the buffer. -/
def preamble : GoString :=
  ("// Copyright 2016 govend. All rights reserved.\n" ++
   "\t// Use of this source code is governed by an Apache 2.0\n" ++
   "\t// license that can be found in the LICENSE file.\n" ++
   "\n" ++
   "\t//\n" ++
   "\t// this file is auto-generated by generate.go\n" ++
   "\t//\n" ++
   "\n" ++
   "\t" ++
   "package filters\n" ++
   "\n" ++
   "\ttype stdpkg struct \x7b\n" ++
   "\t\tpath, dir string\n" ++
   "\t\x7d\n" ++
   "\t").toList

/-- One `fmt.Fprintf(&buf, "\"%s\": %#v,\n", key, pkgs[key])`. -/
def entry (tbl : Char → Bool) (pkgs : PkgMap) (key : GoString) : GoString :=
  dquote :: key ++ dquote :: ": ".toList ++ sharpV tbl (lookup pkgs key) ++ ",\n".toList

/-- Go's `sort.Strings`. -/
def sortStrings (ks : List GoString) : List GoString :=
  ks.insertionSort (fun a b => a ≤ b)

/-- The entries written by the loop `for _, key := range keys`. -/
def entries (tbl : Char → Bool) (pkgs : PkgMap) (ks : List GoString) : List GoString :=
  ks.map (entry tbl pkgs)

/-- The content of `buf` when `main` reaches `src := buf.Bytes()`; `enum` is
the order in which `range pkgs` delivered the keys. -/
def printed (tbl : Char → Bool) (pkgs : PkgMap) (enum : List GoString) : GoString :=
  preamble ++ "var stdpkgs = map[string][]stdpkg\x7b\n".toList ++
    (entries tbl pkgs (sortStrings enum)).flatten ++ "\x7d".toList

/-- The scan of `bytes.Replace` for a non-empty `old`: `skip` characters of a
match are still to be dropped, `n` replacements may still be made (`none` for
no limit). -/
def replaceLoop (old new : GoString) : Option Nat → Nat → GoString → GoString
  | _, _, [] => []
  | n, skip + 1, _ :: cs => replaceLoop old new n skip cs
  | some 0, 0, c :: cs => c :: cs
  | some (n + 1), 0, c :: cs =>
    if old.isPrefixOf (c :: cs) then new ++ replaceLoop old new (some n) (old.length - 1) cs
    else c :: replaceLoop old new (some (n + 1)) 0 cs
  | none, 0, c :: cs =>
    if old.isPrefixOf (c :: cs) then new ++ replaceLoop old new none (old.length - 1) cs
    else c :: replaceLoop old new none 0 cs

/-- The case of `bytes.Replace` for an empty `old`, which matches before every
character and at the end. -/
def replaceEmpty (new : GoString) : Option Nat → GoString → GoString
  | some 0, s => s
  | _, [] => new
  | some (n + 1), c :: cs => new ++ c :: replaceEmpty new (some n) cs
  | none, c :: cs => new ++ c :: replaceEmpty new none cs

/-- Go's `bytes.Replace(s, old, new, n)`; a negative `n` is no limit. -/
def bytesReplace (s old new : GoString) (n : Int) : GoString :=
  let limit : Option Nat := if n < 0 then none else some n.toNat
  if old = [] then replaceEmpty new limit s else replaceLoop old new limit 0 s

/-- The pass `src = bytes.Replace(src, []byte(ctx.GOROOT), []byte("/go"), -1)`. -/
def replaceRoot (goroot src : GoString) : GoString :=
  bytesReplace src goroot "/go".toList (-1)

/-- The eight `bytes.Replace` passes of `main`, in order. -/
def substitute (goroot src : GoString) : GoString :=
  let s1 := bytesReplace src "main.stdpkg".toList "stdpkg".toList (-1)
  let s2 := replaceRoot goroot s1
  let s3 := bytesReplace s2 "[]stdpkg\x7bstdpkg\x7b".toList "\x7b\n\x7b".toList (-1)
  let s4 := bytesReplace s3 ", stdpkg".toList ",\nstdpkg".toList (-1)
  let s5 := bytesReplace s4 "stdpkg\x7bpath".toList "\x7bpath".toList (-1)
  let s6 := bytesReplace s5 "\x7d\x7d, ".toList "\x7d,\n\x7d,\n".toList (-1)
  let s7 := bytesReplace s6 "true, ".toList "true,\n".toList (-1)
  bytesReplace s7 "\x7d\x7d\x7d".toList "\x7d,\n\x7d,\n\x7d".toList (-1)

/-- The text `main` hands to `format.Source`. -/
def source (tbl : Char → Bool) (goroot : GoString) (pkgs : PkgMap)
    (enum : List GoString) : GoString :=
  substitute goroot (printed tbl pkgs enum)

/-- The end of `main`: `format.Source` (the formatter `fmt`, which may fail)
and `ioutil.WriteFile`; the result is the content of "stdpkgs.go", or `none`
when `log.Fatal` ends the run. -/
def output (fmt : GoString → Option GoString) (tbl : Char → Bool) (goroot : GoString)
    (pkgs : PkgMap) (enum : List GoString) : Option GoString :=
  fmt (source tbl goroot pkgs enum)

/-- The function `main` as a whole: the walk from the empty map and the empty
log, then the emitter.  The result is the content written to "stdpkgs.go"
(`none` when `log.Fatal` ends the run) and the lines logged. -/
def main (fmt : GoString → Option GoString) (tbl : Char → Bool) (goroot : GoString)
    (roots : List (GoString × Option (List FileInfo))) (enum : List GoString) :
    Option GoString × List GoString :=
  (output fmt tbl goroot (walk roots { pkgs := [], log := [] }).pkgs enum,
    (walk roots { pkgs := [], log := [] }).log)

/-! ## What the walker appends, in order

The functions below list the `(key, record)` pairs that `load` appends, in the
order of the appends.  They are used to state and prove the properties of the
walk; `load_eq_appendAll` ties them to the code. -/

/-- Appending a sequence of records, each under its key. -/
def appendAll (pkgs : PkgMap) (t : List (GoString × stdpkg)) : PkgMap :=
  t.foldl (fun m kr => appendPkg m kr.1 kr.2) pkgs

mutual
/-- The appends performed by `load root importpath node`. -/
def loadTrace (root importpath : GoString) (node : FileInfo) : List (GoString × stdpkg) :=
  if pathBase importpath = "testdata".toList then []
  else
    (pathBase importpath, { path := importpath, dir := filepathJoin root importpath }) ::
      match node with
      | .file _ => []
      | .dir _ none => []
      | .dir _ (some children) => childrenTrace root importpath children
/-- The appends performed by the loop over `children` in `load`. -/
def childrenTrace (root : GoString) : GoString → List FileInfo → List (GoString × stdpkg)
  | _, [] => []
  | importpath, child :: rest =>
    if child.name = [] then childrenTrace root importpath rest
    else if specialFirst (child.name.headD ' ') then childrenTrace root importpath rest
    else if child.isDir then
      loadTrace root (filepathJoin importpath child.name) child ++
        childrenTrace root importpath rest
    else childrenTrace root importpath rest
end

/-- The appends performed by the inner loop of `main` on one source root. -/
def mainTrace (path : GoString) : List FileInfo → List (GoString × stdpkg)
  | [] => []
  | child :: rest =>
    if child.isDir then loadTrace path child.name child ++ mainTrace path rest
    else mainTrace path rest

/-! ## The directories the walk visits

A directory is identified by the list of names that leads to it from the
source root.  The functions below read the visited directories off the tree,
without any path arithmetic. -/

/-- A name that a directory entry can have: not empty, without a slash, and
neither `.` nor `..`. -/
def validName (n : GoString) : Bool :=
  decide (n ≠ []) && !n.contains '/' && decide (n ≠ ['.']) && decide (n ≠ ['.', '.'])

mutual
/-- Every entry of the tree has a name that a directory entry can have. -/
def FileInfo.wellNamed : FileInfo → Bool
  | .file n => validName n
  | .dir n none => validName n
  | .dir n (some cs) => validName n && wellNamedList cs
/-- Every entry of the listing, at any depth, has a valid name. -/
def wellNamedList : List FileInfo → Bool
  | [] => true
  | c :: cs => c.wellNamed && wellNamedList cs
end

/-- The slash-separated path made of the names `segs`. -/
def relPath (segs : List GoString) : GoString :=
  List.intercalate ['/'] segs

mutual
/-- The directories visited at and below the entry `node` of the directory
reached by `segs`: none for a file or a directory named "testdata". -/
def visitsNode : List GoString → FileInfo → List (List GoString)
  | _, .file _ => []
  | segs, .dir n none => if n = "testdata".toList then [] else [segs ++ [n]]
  | segs, .dir n (some cs) =>
    if n = "testdata".toList then [] else (segs ++ [n]) :: visitsChildren (segs ++ [n]) cs
/-- The directories visited below a visited directory with listing `cs`:
entries whose name is empty or starts with a dot or a digit are passed over. -/
def visitsChildren : List GoString → List FileInfo → List (List GoString)
  | _, [] => []
  | segs, c :: rest =>
    if c.name = [] then visitsChildren segs rest
    else if specialFirst (c.name.headD ' ') then visitsChildren segs rest
    else visitsNode segs c ++ visitsChildren segs rest
end

/-- The directories visited under a source root with listing `cs`. -/
def visitsRoot : List FileInfo → List (List GoString)
  | [] => []
  | c :: rest => visitsNode [] c ++ visitsRoot rest

/-- The record of the directory reached by `segs` under the root `root`, with
the key it is stored under. -/
def recordOf (root : GoString) (segs : List GoString) : GoString × stdpkg :=
  (segs.getLast?.getD [], { path := relPath segs, dir := filepathJoin root (relPath segs) })

/-! ## Concrete inputs -/

/-- The tree with the directories "fmt", "net", "net/http", "vendor" and
"vendor/v1", all readable. -/
def exampleTree : List FileInfo :=
  [.dir "fmt".toList (some []),
   .dir "net".toList (some [.dir "http".toList (some [])]),
   .dir "vendor".toList (some [.dir "v1".toList (some [])])]

/-- The tree with the directories "a", "a/util", "b" and "b/util". -/
def utilTree : List FileInfo :=
  [.dir "a".toList (some [.dir "util".toList (some [])]),
   .dir "b".toList (some [.dir "util".toList (some [])])]

/-! ## Unfolding the walker -/

theorem load_file (root importpath n : GoString) (pkgs : PkgMap) :
    load root importpath (.file n) pkgs =
      if pathBase importpath = "testdata".toList then pkgs
      else appendPkg pkgs (pathBase importpath)
        { path := importpath, dir := filepathJoin root importpath } := rfl

theorem load_unreadable (root importpath n : GoString) (pkgs : PkgMap) :
    load root importpath (.dir n none) pkgs =
      if pathBase importpath = "testdata".toList then pkgs
      else appendPkg pkgs (pathBase importpath)
        { path := importpath, dir := filepathJoin root importpath } := rfl

theorem load_readable (root importpath n : GoString) (cs : List FileInfo) (pkgs : PkgMap) :
    load root importpath (.dir n (some cs)) pkgs =
      if pathBase importpath = "testdata".toList then pkgs
      else loadChildren root importpath cs (appendPkg pkgs (pathBase importpath)
        { path := importpath, dir := filepathJoin root importpath }) := rfl

theorem loadChildren_nil (root importpath : GoString) (pkgs : PkgMap) :
    loadChildren root importpath [] pkgs = pkgs := rfl

theorem loadChildren_cons (root importpath : GoString) (c : FileInfo) (rest : List FileInfo)
    (pkgs : PkgMap) :
    loadChildren root importpath (c :: rest) pkgs =
      if c.name = [] then loadChildren root importpath rest pkgs
      else if specialFirst (c.name.headD ' ') then loadChildren root importpath rest pkgs
      else if c.isDir then
        loadChildren root importpath rest (load root (filepathJoin importpath c.name) c pkgs)
      else loadChildren root importpath rest pkgs := rfl

theorem loadTrace_file (root importpath n : GoString) :
    loadTrace root importpath (.file n) =
      if pathBase importpath = "testdata".toList then []
      else [(pathBase importpath, { path := importpath, dir := filepathJoin root importpath })] := rfl

theorem loadTrace_unreadable (root importpath n : GoString) :
    loadTrace root importpath (.dir n none) =
      if pathBase importpath = "testdata".toList then []
      else [(pathBase importpath, { path := importpath, dir := filepathJoin root importpath })] := rfl

theorem loadTrace_readable (root importpath n : GoString) (cs : List FileInfo) :
    loadTrace root importpath (.dir n (some cs)) =
      if pathBase importpath = "testdata".toList then []
      else (pathBase importpath, { path := importpath, dir := filepathJoin root importpath }) ::
        childrenTrace root importpath cs := rfl

theorem childrenTrace_nil (root importpath : GoString) :
    childrenTrace root importpath [] = [] := rfl

theorem childrenTrace_cons (root importpath : GoString) (c : FileInfo) (rest : List FileInfo) :
    childrenTrace root importpath (c :: rest) =
      if c.name = [] then childrenTrace root importpath rest
      else if specialFirst (c.name.headD ' ') then childrenTrace root importpath rest
      else if c.isDir then
        loadTrace root (filepathJoin importpath c.name) c ++ childrenTrace root importpath rest
      else childrenTrace root importpath rest := rfl

theorem appendAll_append (pkgs : PkgMap) (t u : List (GoString × stdpkg)) :
    appendAll pkgs (t ++ u) = appendAll (appendAll pkgs t) u := by
  simp [appendAll, List.foldl_append]

theorem appendAll_cons (pkgs : PkgMap) (kr : GoString × stdpkg) (t : List (GoString × stdpkg)) :
    appendAll pkgs (kr :: t) = appendAll (appendPkg pkgs kr.1 kr.2) t := rfl

theorem appendAll_nil (pkgs : PkgMap) : appendAll pkgs [] = pkgs := rfl

mutual
theorem load_eq_appendAll (root importpath : GoString) :
    ∀ (node : FileInfo) (pkgs : PkgMap),
      load root importpath node pkgs = appendAll pkgs (loadTrace root importpath node)
  | .file n, pkgs => by
    rw [load_file, loadTrace_file]
    by_cases h : pathBase importpath = "testdata".toList
    · rw [if_pos h, if_pos h]; rfl
    · rw [if_neg h, if_neg h]; rfl
  | .dir n none, pkgs => by
    rw [load_unreadable, loadTrace_unreadable]
    by_cases h : pathBase importpath = "testdata".toList
    · rw [if_pos h, if_pos h]; rfl
    · rw [if_neg h, if_neg h]; rfl
  | .dir n (some cs), pkgs => by
    rw [load_readable, loadTrace_readable]
    by_cases h : pathBase importpath = "testdata".toList
    · rw [if_pos h, if_pos h]; rfl
    · rw [if_neg h, if_neg h, appendAll_cons]
      exact loadChildren_eq_appendAll root importpath cs _
theorem loadChildren_eq_appendAll (root : GoString) :
    ∀ (importpath : GoString) (cs : List FileInfo) (pkgs : PkgMap),
      loadChildren root importpath cs pkgs = appendAll pkgs (childrenTrace root importpath cs)
  | _, [], pkgs => rfl
  | importpath, c :: rest, pkgs => by
    rw [loadChildren_cons, childrenTrace_cons]
    by_cases h1 : c.name = []
    · rw [if_pos h1, if_pos h1]
      exact loadChildren_eq_appendAll root importpath rest pkgs
    · by_cases h2 : specialFirst (c.name.headD ' ') = true
      · rw [if_neg h1, if_neg h1, if_pos h2, if_pos h2]
        exact loadChildren_eq_appendAll root importpath rest pkgs
      · by_cases h3 : c.isDir = true
        · rw [if_neg h1, if_neg h1, if_neg h2, if_neg h2, if_pos h3, if_pos h3]
          rw [appendAll_append, ← load_eq_appendAll root _ c pkgs]
          exact loadChildren_eq_appendAll root importpath rest _
        · rw [if_neg h1, if_neg h1, if_neg h2, if_neg h2, if_neg h3, if_neg h3]
          exact loadChildren_eq_appendAll root importpath rest pkgs
end

theorem mainChildren_eq_appendAll (path : GoString) :
    ∀ (cs : List FileInfo) (pkgs : PkgMap),
      mainChildren path cs pkgs = appendAll pkgs (mainTrace path cs)
  | [], pkgs => rfl
  | c :: rest, pkgs => by
    unfold mainChildren mainTrace
    by_cases h : c.isDir = true
    · rw [if_pos h, if_pos h, appendAll_append, ← load_eq_appendAll]
      exact mainChildren_eq_appendAll path rest _
    · rw [if_neg h, if_neg h]
      exact mainChildren_eq_appendAll path rest pkgs

theorem lookup_appendPkg (pkgs : PkgMap) (name : GoString) (r : stdpkg) (k : GoString) :
    lookup (appendPkg pkgs name r) k =
      if name = k then lookup pkgs k ++ [r] else lookup pkgs k := by
  induction pkgs with
  | nil =>
    by_cases h : name = k <;> simp [appendPkg, lookup, h]
  | cons kv rest ih =>
    obtain ⟨k0, v⟩ := kv
    by_cases h0 : k0 = name
    · subst h0
      by_cases h : k0 = k <;> simp [appendPkg, lookup, h]
    · by_cases h1 : k0 = k
      · subst h1
        have : ¬ name = k0 := fun e => h0 e.symm
        simp [appendPkg, lookup, h0, this]
      · simp [appendPkg, lookup, h0, h1, ih]

theorem lookup_appendAll (t : List (GoString × stdpkg)) :
    ∀ (pkgs : PkgMap) (k : GoString),
      lookup (appendAll pkgs t) k =
        lookup pkgs k ++ (t.filter (fun kr => decide (kr.1 = k))).map Prod.snd := by
  induction t with
  | nil => intro pkgs k; simp [appendAll]
  | cons kr t ih =>
    intro pkgs k
    rw [appendAll_cons, ih, lookup_appendPkg]
    by_cases h : kr.1 = k <;> simp [h, List.filter_cons]
/-! ## Path arithmetic on valid names -/

theorem validName_ne_nil {n : GoString} (h : validName n = true) : n ≠ [] := by
  simp [validName] at h
  exact h.1.1.1

theorem validName_no_slash {n : GoString} (h : validName n = true) : '/' ∉ n := by
  simp [validName] at h
  exact h.1.1.2

theorem validName_ne_dot {n : GoString} (h : validName n = true) : n ≠ ['.'] := by
  simp [validName] at h
  exact h.1.2

theorem validName_ne_dotdot {n : GoString} (h : validName n = true) : n ≠ ['.', '.'] := by
  simp [validName] at h
  exact h.2

theorem splitSlash_noslash (s : GoString) (h : '/' ∉ s) : splitSlash s = [s] := by
  induction s with
  | nil => rfl
  | cons c cs ih =>
    have hc : c ≠ '/' := fun e => h (by simp [e])
    have hcs : '/' ∉ cs := fun m => h (List.mem_cons_of_mem _ m)
    simp [splitSlash, hc, ih hcs]

theorem splitSlash_append (s rest : GoString) (h : '/' ∉ s) :
    splitSlash (s ++ '/' :: rest) = s :: splitSlash rest := by
  induction s with
  | nil => simp [splitSlash]
  | cons c cs ih =>
    have hc : c ≠ '/' := fun e => h (by simp [e])
    have hcs : '/' ∉ cs := fun m => h (List.mem_cons_of_mem _ m)
    simp [splitSlash, hc, ih hcs]

theorem relPath_singleton (n : GoString) : relPath [n] = n := by
  simp [relPath, List.intercalate, List.intersperse]

theorem relPath_cons_cons (s t : GoString) (ss : List GoString) :
    relPath (s :: t :: ss) = s ++ '/' :: relPath (t :: ss) := by
  simp [relPath, List.intercalate, List.intersperse]

theorem relPath_append_singleton (ss : List GoString) (n : GoString) (h : ss ≠ []) :
    relPath (ss ++ [n]) = relPath ss ++ '/' :: n := by
  induction ss with
  | nil => exact absurd rfl h
  | cons s ss ih =>
    cases ss with
    | nil => simp [relPath_cons_cons, relPath_singleton]
    | cons t ss =>
      have := ih (by simp)
      simp only [List.cons_append] at this ⊢
      rw [relPath_cons_cons, this, relPath_cons_cons]
      simp

theorem splitSlash_relPath (ss : List GoString) (hne : ss ≠ [])
    (hv : ∀ s ∈ ss, '/' ∉ s) : splitSlash (relPath ss) = ss := by
  induction ss with
  | nil => exact absurd rfl hne
  | cons s ss ih =>
    cases ss with
    | nil =>
      rw [relPath_singleton]
      exact splitSlash_noslash s (hv s (by simp))
    | cons t ss =>
      rw [relPath_cons_cons, splitSlash_append s _ (hv s (by simp))]
      rw [ih (by simp) (fun x hx => hv x (List.mem_cons_of_mem _ hx))]

theorem cleanStep_valid (rooted : Bool) (st : List GoString × Nat) (seg : GoString)
    (h : validName seg = true) : cleanStep rooted st seg = (st.1 ++ [seg], st.2) := by
  unfold cleanStep
  rw [if_neg (validName_ne_nil h), if_neg (validName_ne_dot h), if_neg (validName_ne_dotdot h)]

theorem foldl_cleanStep_valid (rooted : Bool) (ss : List GoString)
    (hv : ∀ s ∈ ss, validName s = true) :
    ∀ (acc : List GoString) (d : Nat),
      ss.foldl (cleanStep rooted) (acc, d) = (acc ++ ss, d) := by
  induction ss with
  | nil => intro acc d; simp
  | cons s ss ih =>
    intro acc d
    rw [List.foldl_cons, cleanStep_valid rooted _ s (hv s (by simp))]
    rw [ih (fun x hx => hv x (List.mem_cons_of_mem _ hx))]
    simp

theorem relPath_ne_nil (ss : List GoString) (hne : ss ≠ [])
    (hv : ∀ s ∈ ss, validName s = true) : relPath ss ≠ [] := by
  cases ss with
  | nil => exact absurd rfl hne
  | cons s ss =>
    have hs := validName_ne_nil (hv s (by simp))
    cases ss with
    | nil => rw [relPath_singleton]; exact hs
    | cons t ss => rw [relPath_cons_cons]; simp [hs]

theorem relPath_head (ss : List GoString) (hne : ss ≠ [])
    (hv : ∀ s ∈ ss, validName s = true) : (relPath ss).head? ≠ some '/' := by
  cases ss with
  | nil => exact absurd rfl hne
  | cons s ss =>
    have hs := validName_ne_nil (hv s (by simp))
    have hsl := validName_no_slash (hv s (by simp))
    cases s with
    | nil => exact absurd rfl hs
    | cons c cs =>
      have hc : c ≠ '/' := fun e => hsl (by simp [e])
      cases ss with
      | nil => rw [relPath_singleton]; simpa using hc
      | cons t ss => rw [relPath_cons_cons]; simpa using hc

theorem filepathClean_relPath (ss : List GoString) (hne : ss ≠ [])
    (hv : ∀ s ∈ ss, validName s = true) : filepathClean (relPath ss) = relPath ss := by
  have h1 := relPath_ne_nil ss hne hv
  have h2 := relPath_head ss hne hv
  have h3 : ((relPath ss).head? == some '/') = false := by
    simpa using h2
  unfold filepathClean
  rw [if_neg h1]
  simp only [h3]
  rw [splitSlash_relPath ss hne (fun s hs => validName_no_slash (hv s hs))]
  rw [foldl_cleanStep_valid false ss hv]
  simp only [List.nil_append, Bool.false_eq_true, if_false]
  exact if_neg h1

theorem filepathJoin_relPath (ss : List GoString) (n : GoString) (hne : ss ≠ [])
    (hv : ∀ s ∈ ss, validName s = true) (hn : validName n = true) :
    filepathJoin (relPath ss) n = relPath (ss ++ [n]) := by
  unfold filepathJoin
  rw [if_pos (relPath_ne_nil ss hne hv), ← relPath_append_singleton ss n hne]
  apply filepathClean_relPath
  · simp
  · intro s hs
    rcases List.mem_append.1 hs with h | h
    · exact hv s h
    · simp at h; subst h; exact hn

theorem takeWhile_append_stop (p : Char → Bool) (l r : GoString) (x : Char)
    (hl : ∀ c ∈ l, p c = true) (hx : p x = false) :
    (l ++ x :: r).takeWhile p = l := by
  induction l with
  | nil => simp [List.takeWhile, hx]
  | cons c cs ih =>
    simp [List.takeWhile, hl c (by simp), ih (fun y hy => hl y (List.mem_cons_of_mem _ hy))]

theorem takeWhile_all (p : Char → Bool) (l : GoString) (hl : ∀ c ∈ l, p c = true) :
    l.takeWhile p = l := by
  induction l with
  | nil => rfl
  | cons c cs ih =>
    simp [List.takeWhile, hl c (by simp), ih (fun y hy => hl y (List.mem_cons_of_mem _ hy))]

theorem stripTrailingSlashes_append (a n : GoString) (hn : n ≠ []) (hs : '/' ∉ n) :
    stripTrailingSlashes (a ++ n) = a ++ n := by
  unfold stripTrailingSlashes
  have hr : n.reverse ≠ [] := by simpa using hn
  cases hrev : n.reverse with
  | nil => exact absurd hrev hr
  | cons x xs =>
    have hx : x ∈ n := by
      have : x ∈ n.reverse := by rw [hrev]; simp
      simpa using this
    have hx2 : x ≠ '/' := fun e => hs (e ▸ hx)
    rw [List.reverse_append, hrev]
    simp only [List.cons_append, List.dropWhile]
    have : (x == '/') = false := by simpa using hx2
    simp only [this]
    have hn2 : n = (x :: xs).reverse := by rw [← hrev, List.reverse_reverse]
    rw [hn2]
    simp

theorem pathBase_append (a n : GoString) (hn : validName n = true) :
    pathBase (a ++ '/' :: n) = n := by
  have hne := validName_ne_nil hn
  have hs := validName_no_slash hn
  unfold pathBase
  rw [if_neg (by simp)]
  have e : a ++ '/' :: n = (a ++ ['/']) ++ n := by simp
  have h1 : stripTrailingSlashes (a ++ '/' :: n) = a ++ '/' :: n := by
    rw [e]; exact stripTrailingSlashes_append _ n hne hs
  simp only [h1]
  have h2 : afterLastSlash (a ++ '/' :: n) = n := by
    unfold afterLastSlash
    rw [List.reverse_append, List.reverse_cons, List.append_assoc]
    simp only [List.singleton_append]
    rw [takeWhile_append_stop _ n.reverse a.reverse '/' _ (by simp)]
    · simp
    · intro c hc
      have : c ∈ n := by simpa using hc
      have : c ≠ '/' := fun e => hs (e ▸ this)
      simpa using this
  rw [h2, if_neg hne]

theorem pathBase_valid (n : GoString) (hn : validName n = true) : pathBase n = n := by
  have hne := validName_ne_nil hn
  have hs := validName_no_slash hn
  unfold pathBase
  rw [if_neg hne]
  have h1 : stripTrailingSlashes n = n := by
    simpa using stripTrailingSlashes_append [] n hne hs
  simp only [h1]
  have h2 : afterLastSlash n = n := by
    unfold afterLastSlash
    rw [takeWhile_all]
    · simp
    · intro c hc
      have : c ∈ n := by simpa using hc
      have : c ≠ '/' := fun e => hs (e ▸ this)
      simpa using this
  rw [h2, if_neg hne]

theorem pathBase_relPath (ss : List GoString) (n : GoString)
    (hn : validName n = true) : pathBase (relPath (ss ++ [n])) = n := by
  cases ss with
  | nil => simpa [relPath_singleton] using pathBase_valid n hn
  | cons s ss =>
    rw [relPath_append_singleton _ n (by simp)]
    exact pathBase_append _ n hn

/-! ## The appends of the walk are the records of the visited directories -/

theorem visitsNode_file (segs : List GoString) (n : GoString) :
    visitsNode segs (.file n) = [] := rfl

theorem visitsNode_unreadable (segs : List GoString) (n : GoString) :
    visitsNode segs (.dir n none) =
      if n = "testdata".toList then [] else [segs ++ [n]] := rfl

theorem visitsNode_readable (segs : List GoString) (n : GoString) (cs : List FileInfo) :
    visitsNode segs (.dir n (some cs)) =
      if n = "testdata".toList then []
      else (segs ++ [n]) :: visitsChildren (segs ++ [n]) cs := rfl

theorem visitsChildren_nil (segs : List GoString) : visitsChildren segs [] = [] := rfl

theorem visitsChildren_cons (segs : List GoString) (c : FileInfo) (rest : List FileInfo) :
    visitsChildren segs (c :: rest) =
      if c.name = [] then visitsChildren segs rest
      else if specialFirst (c.name.headD ' ') then visitsChildren segs rest
      else visitsNode segs c ++ visitsChildren segs rest := rfl

theorem wellNamed_name : ∀ (c : FileInfo), c.wellNamed = true → validName c.name = true
  | .file n, h => h
  | .dir n none, h => h
  | .dir n (some cs), h => by
    have h2 : (validName n && wellNamedList cs) = true := h
    simp only [Bool.and_eq_true] at h2
    exact h2.1

theorem wellNamed_children (n : GoString) (cs : List FileInfo)
    (h : (FileInfo.dir n (some cs)).wellNamed = true) : wellNamedList cs = true := by
  have h2 : (validName n && wellNamedList cs) = true := h
  simp only [Bool.and_eq_true] at h2
  exact h2.2

theorem wellNamedList_cons (c : FileInfo) (cs : List FileInfo) :
    wellNamedList (c :: cs) = true ↔ c.wellNamed = true ∧ wellNamedList cs = true := by
  have : wellNamedList (c :: cs) = (c.wellNamed && wellNamedList cs) := rfl
  rw [this, Bool.and_eq_true]

theorem recordOf_snoc (root : GoString) (segs : List GoString) (n : GoString) :
    recordOf root (segs ++ [n]) =
      (n, { path := relPath (segs ++ [n]), dir := filepathJoin root (relPath (segs ++ [n])) }) := by
  simp [recordOf]

mutual
theorem loadTrace_visits (root : GoString) :
    ∀ (segs : List GoString) (node : FileInfo),
      (∀ s ∈ segs, validName s = true) → node.wellNamed = true →
      loadTrace root (relPath (segs ++ [node.name])) node =
        if node.isDir then (visitsNode segs node).map (recordOf root) else
          loadTrace root (relPath (segs ++ [node.name])) node
  | segs, .file n, _, _ => rfl
  | segs, .dir n none, hv, hw => by
    have hn : validName n = true := wellNamed_name _ hw
    show loadTrace root (relPath (segs ++ [n])) (.dir n none) =
      (visitsNode segs (.dir n none)).map (recordOf root)
    rw [loadTrace_unreadable, visitsNode_unreadable, pathBase_relPath segs n hn]
    by_cases h : n = "testdata".toList
    · rw [if_pos h, if_pos h]; rfl
    · rw [if_neg h, if_neg h, List.map_singleton, recordOf_snoc]
  | segs, .dir n (some cs), hv, hw => by
    have hn : validName n = true := wellNamed_name _ hw
    show loadTrace root (relPath (segs ++ [n])) (.dir n (some cs)) =
      (visitsNode segs (.dir n (some cs))).map (recordOf root)
    rw [loadTrace_readable, visitsNode_readable, pathBase_relPath segs n hn]
    by_cases h : n = "testdata".toList
    · rw [if_pos h, if_pos h]; rfl
    · rw [if_neg h, if_neg h, List.map_cons, recordOf_snoc]
      congr 1
      apply childrenTrace_visits root (segs ++ [n]) cs (by simp)
      · intro s hs
        rcases List.mem_append.1 hs with h1 | h1
        · exact hv s h1
        · simp at h1; subst h1; exact hn
      · exact wellNamed_children n cs hw
theorem childrenTrace_visits (root : GoString) :
    ∀ (segs : List GoString) (cs : List FileInfo), segs ≠ [] →
      (∀ s ∈ segs, validName s = true) → wellNamedList cs = true →
      childrenTrace root (relPath segs) cs = (visitsChildren segs cs).map (recordOf root)
  | _, [], _, _, _ => rfl
  | segs, c :: rest, hne, hv, hw => by
    have hw2 := (wellNamedList_cons c rest).1 hw
    have ih := childrenTrace_visits root segs rest hne hv hw2.2
    rw [childrenTrace_cons, visitsChildren_cons]
    by_cases h1 : c.name = []
    · rw [if_pos h1, if_pos h1]; exact ih
    · by_cases h2 : specialFirst (c.name.headD ' ') = true
      · rw [if_neg h1, if_neg h1, if_pos h2, if_pos h2]; exact ih
      · rw [if_neg h1, if_neg h1, if_neg h2, if_neg h2]
        by_cases h3 : c.isDir = true
        · rw [if_pos h3, filepathJoin_relPath segs c.name hne hv (wellNamed_name c hw2.1)]
          have := loadTrace_visits root segs c hv hw2.1
          rw [if_pos h3] at this
          rw [this, ih, List.map_append]
        · rw [if_neg h3, ih]
          cases c with
          | file n => rw [visitsNode_file]; rfl
          | dir n l => exact absurd rfl h3
end

theorem mainTrace_visits (root : GoString) :
    ∀ (cs : List FileInfo), wellNamedList cs = true →
      mainTrace root cs = (visitsRoot cs).map (recordOf root)
  | [], _ => rfl
  | c :: rest, hw => by
    have hw2 := (wellNamedList_cons c rest).1 hw
    have ih := mainTrace_visits root rest hw2.2
    unfold mainTrace visitsRoot
    by_cases h3 : c.isDir = true
    · rw [if_pos h3]
      have := loadTrace_visits root [] c (by simp) hw2.1
      rw [if_pos h3, List.nil_append, relPath_singleton] at this
      rw [this, ih, List.map_append]
    · rw [if_neg h3, ih]
      cases c with
      | file n => rw [visitsNode_file]; rfl
      | dir n l => exact absurd rfl h3

/-- The content of the map after the inner loop of `main` on one root: under
every key, the records already there followed by the records of the visited
directories with that base name, in the order of the visits. -/
theorem lookup_mainChildren (root : GoString) (cs : List FileInfo)
    (hw : wellNamedList cs = true) (pkgs : PkgMap) (k : GoString) :
    lookup (mainChildren root cs pkgs) k =
      lookup pkgs k ++
        (((visitsRoot cs).map (recordOf root)).filter (fun kr => decide (kr.1 = k))).map Prod.snd := by
  rw [mainChildren_eq_appendAll, lookup_appendAll, mainTrace_visits root cs hw]

/-! ## Shape of the visited paths and of the appended records -/

mutual
theorem visitsNode_snoc :
    ∀ (pre : List GoString) (node : FileInfo) (segs : List GoString),
      segs ∈ visitsNode pre node → ∃ init n, segs = init ++ [n]
  | pre, .file n, segs, h => by rw [visitsNode_file] at h; cases h
  | pre, .dir n none, segs, h => by
    rw [visitsNode_unreadable] at h
    by_cases ht : n = "testdata".toList
    · rw [if_pos ht] at h; cases h
    · rw [if_neg ht] at h
      exact ⟨pre, n, by simpa using h⟩
  | pre, .dir n (some cs), segs, h => by
    rw [visitsNode_readable] at h
    by_cases ht : n = "testdata".toList
    · rw [if_pos ht] at h; cases h
    · rw [if_neg ht] at h
      rcases List.mem_cons.1 h with h1 | h1
      · exact ⟨pre, n, h1⟩
      · exact visitsChildren_snoc (pre ++ [n]) cs segs h1
theorem visitsChildren_snoc :
    ∀ (pre : List GoString) (cs : List FileInfo) (segs : List GoString),
      segs ∈ visitsChildren pre cs → ∃ init n, segs = init ++ [n]
  | pre, [], segs, h => by rw [visitsChildren_nil] at h; cases h
  | pre, c :: rest, segs, h => by
    rw [visitsChildren_cons] at h
    by_cases h1 : c.name = []
    · rw [if_pos h1] at h; exact visitsChildren_snoc pre rest segs h
    · by_cases h2 : specialFirst (c.name.headD ' ') = true
      · rw [if_neg h1, if_pos h2] at h; exact visitsChildren_snoc pre rest segs h
      · rw [if_neg h1, if_neg h2] at h
        rcases List.mem_append.1 h with h3 | h3
        · exact visitsNode_snoc pre c segs h3
        · exact visitsChildren_snoc pre rest segs h3
end

theorem visitsRoot_snoc :
    ∀ (cs : List FileInfo) (segs : List GoString),
      segs ∈ visitsRoot cs → ∃ init n, segs = init ++ [n]
  | [], segs, h => by cases h
  | c :: rest, segs, h => by
    unfold visitsRoot at h
    rcases List.mem_append.1 h with h3 | h3
    · exact visitsNode_snoc [] c segs h3
    · exact visitsRoot_snoc rest segs h3

theorem recordOf_key_iff (root : GoString) (segs : List GoString) (k : GoString)
    (h : ∃ init n, segs = init ++ [n]) :
    (recordOf root segs).1 = k ↔ segs.getLast? = some k := by
  obtain ⟨init, n, rfl⟩ := h
  simp [recordOf]

mutual
theorem loadTrace_shape (root importpath : GoString) :
    ∀ (node : FileInfo) (kr : GoString × stdpkg), kr ∈ loadTrace root importpath node →
      pathBase kr.2.path = kr.1 ∧ kr.2.dir = filepathJoin root kr.2.path
  | .file n, kr, h => by
    rw [loadTrace_file] at h
    by_cases ht : pathBase importpath = "testdata".toList
    · rw [if_pos ht] at h; cases h
    · rw [if_neg ht] at h
      have : kr = _ := List.mem_singleton.1 h
      subst this; exact ⟨rfl, rfl⟩
  | .dir n none, kr, h => by
    rw [loadTrace_unreadable] at h
    by_cases ht : pathBase importpath = "testdata".toList
    · rw [if_pos ht] at h; cases h
    · rw [if_neg ht] at h
      have : kr = _ := List.mem_singleton.1 h
      subst this; exact ⟨rfl, rfl⟩
  | .dir n (some cs), kr, h => by
    rw [loadTrace_readable] at h
    by_cases ht : pathBase importpath = "testdata".toList
    · rw [if_pos ht] at h; cases h
    · rw [if_neg ht] at h
      rcases List.mem_cons.1 h with h1 | h1
      · subst h1; exact ⟨rfl, rfl⟩
      · exact childrenTrace_shape root importpath cs kr h1
theorem childrenTrace_shape (root : GoString) :
    ∀ (importpath : GoString) (cs : List FileInfo) (kr : GoString × stdpkg),
      kr ∈ childrenTrace root importpath cs →
      pathBase kr.2.path = kr.1 ∧ kr.2.dir = filepathJoin root kr.2.path
  | _, [], kr, h => by rw [childrenTrace_nil] at h; cases h
  | importpath, c :: rest, kr, h => by
    rw [childrenTrace_cons] at h
    by_cases h1 : c.name = []
    · rw [if_pos h1] at h; exact childrenTrace_shape root importpath rest kr h
    · by_cases h2 : specialFirst (c.name.headD ' ') = true
      · rw [if_neg h1, if_pos h2] at h; exact childrenTrace_shape root importpath rest kr h
      · by_cases h3 : c.isDir = true
        · rw [if_neg h1, if_neg h2, if_pos h3] at h
          rcases List.mem_append.1 h with h4 | h4
          · exact loadTrace_shape root _ c kr h4
          · exact childrenTrace_shape root importpath rest kr h4
        · rw [if_neg h1, if_neg h2, if_neg h3] at h
          exact childrenTrace_shape root importpath rest kr h
end

theorem mainTrace_shape (root : GoString) :
    ∀ (cs : List FileInfo) (kr : GoString × stdpkg), kr ∈ mainTrace root cs →
      pathBase kr.2.path = kr.1 ∧ kr.2.dir = filepathJoin root kr.2.path
  | [], kr, h => by cases h
  | c :: rest, kr, h => by
    unfold mainTrace at h
    by_cases h3 : c.isDir = true
    · rw [if_pos h3] at h
      rcases List.mem_append.1 h with h4 | h4
      · exact loadTrace_shape root _ c kr h4
      · exact mainTrace_shape root rest kr h4
    · rw [if_neg h3] at h
      exact mainTrace_shape root rest kr h

theorem lookup_visits_filter (root : GoString) (cs : List FileInfo) (k : GoString) :
    (((visitsRoot cs).map (recordOf root)).filter (fun kr => decide (kr.1 = k))).map Prod.snd =
      ((visitsRoot cs).filter (fun segs => decide (segs.getLast? = some k))).map
        (fun segs => { path := relPath segs, dir := filepathJoin root (relPath segs) }) := by
  rw [List.filter_map, List.map_map]
  have : (visitsRoot cs).filter ((fun kr => decide (kr.1 = k)) ∘ recordOf root) =
      (visitsRoot cs).filter (fun segs => decide (segs.getLast? = some k)) := by
    apply List.filter_congr
    intro segs hs
    have := recordOf_key_iff root segs k (visitsRoot_snoc cs segs hs)
    simp only [Function.comp, decide_eq_decide]
    exact this
  rw [this]
  rfl

/-- C2: under a root `R` whose entries have valid names, the walk gives every
visited directory exactly one record: under each key `k` the map gains, in the
order of the visits, the records of the visited directories whose last name is
`k`, each with the relative path as `path` and `R` joined with it as `dir`;
conversely every record found under `k` in the map built from the empty one has
`Base(path) = k` and `dir = Join(R, path)` and is the record of a visited
directory whose last name is `k`. -/
theorem visited_directory_recorded (R : GoString) (cs : List FileInfo)
    (hw : wellNamedList cs = true) (pkgs : PkgMap) (k : GoString) :
    lookup (mainChildren R cs pkgs) k =
        lookup pkgs k ++
          ((visitsRoot cs).filter (fun segs => decide (segs.getLast? = some k))).map
            (fun segs => { path := relPath segs, dir := filepathJoin R (relPath segs) }) ∧
      ∀ r ∈ lookup (mainChildren R cs []) k,
        pathBase r.path = k ∧ r.dir = filepathJoin R r.path ∧
          ∃ segs ∈ visitsRoot cs, segs.getLast? = some k ∧ r.path = relPath segs := by
  constructor
  · rw [lookup_mainChildren R cs hw, lookup_visits_filter]
  · intro r hr
    rw [lookup_mainChildren R cs hw, lookup_visits_filter] at hr
    simp only [lookup, List.nil_append, List.mem_map, List.mem_filter, decide_eq_true_eq] at hr
    obtain ⟨segs, ⟨hs, hk⟩, rfl⟩ := hr
    obtain ⟨init, n, rfl⟩ := visitsRoot_snoc cs _ hs
    have hkr : recordOf R (init ++ [n]) ∈ mainTrace R cs := by
      rw [mainTrace_visits R cs hw]
      exact List.mem_map_of_mem _ hs
    have hshape := mainTrace_shape R cs _ hkr
    have hk2 : n = k := by simpa using hk
    subst hk2
    refine ⟨?_, rfl, init ++ [n], hs, hk, rfl⟩
    simpa [recordOf] using hshape.1

/-- C2 at the example tree under the root "/go/src", for the key "http". -/
theorem visited_directory_recorded_witness :
    wellNamedList exampleTree = true ∧
      (lookup (mainChildren "/go/src".toList exampleTree []) "http".toList =
          lookup [] "http".toList ++
            ((visitsRoot exampleTree).filter
              (fun segs => decide (segs.getLast? = some "http".toList))).map
              (fun segs =>
                { path := relPath segs, dir := filepathJoin "/go/src".toList (relPath segs) }) ∧
        ∀ r ∈ lookup (mainChildren "/go/src".toList exampleTree []) "http".toList,
          pathBase r.path = "http".toList ∧ r.dir = filepathJoin "/go/src".toList r.path ∧
            ∃ segs ∈ visitsRoot exampleTree,
              segs.getLast? = some "http".toList ∧ r.path = relPath segs) :=
  ⟨by decide,
    visited_directory_recorded "/go/src".toList exampleTree (by decide) [] "http".toList⟩

/-! ## Records that share a base name -/

theorem lookup_prefix_appendAll (pkgs : PkgMap) (t : List (GoString × stdpkg)) (k : GoString) :
    lookup pkgs k <+: lookup (appendAll pkgs t) k := by
  rw [lookup_appendAll]
  exact List.prefix_append _ _

/-- C3: two visited directories with the same base name `k` and different import
paths both have their record in `pkgs[k]` after the walk, the two records are
different, and neither the whole walk of a root nor any single
`load` removes or changes a record that was already stored under a key: the
old list is a prefix of the new one. -/
theorem same_base_name_both_kept (R : GoString) (cs : List FileInfo)
    (hw : wellNamedList cs = true) (pkgs : PkgMap) (segs1 segs2 : List GoString)
    (k : GoString) (h1 : segs1 ∈ visitsRoot cs) (h2 : segs2 ∈ visitsRoot cs)
    (hk1 : segs1.getLast? = some k) (hk2 : segs2.getLast? = some k)
    (hne : relPath segs1 ≠ relPath segs2) :
    ({ path := relPath segs1, dir := filepathJoin R (relPath segs1) } : stdpkg) ∈
        lookup (mainChildren R cs pkgs) k ∧
      ({ path := relPath segs2, dir := filepathJoin R (relPath segs2) } : stdpkg) ∈
        lookup (mainChildren R cs pkgs) k ∧
      ({ path := relPath segs1, dir := filepathJoin R (relPath segs1) } : stdpkg) ≠
        { path := relPath segs2, dir := filepathJoin R (relPath segs2) } ∧
      lookup pkgs k <+: lookup (mainChildren R cs pkgs) k ∧
      ∀ (root importpath : GoString) (node : FileInfo) (m : PkgMap) (key : GoString),
        lookup m key <+: lookup (load root importpath node m) key := by
  have hl := lookup_mainChildren R cs hw pkgs k
  rw [lookup_visits_filter] at hl
  refine ⟨?_, ?_, ?_, ?_, ?_⟩
  · rw [hl]
    apply List.mem_append_right
    exact List.mem_map.2 ⟨segs1, List.mem_filter.2 ⟨h1, by simpa using hk1⟩, rfl⟩
  · rw [hl]
    apply List.mem_append_right
    exact List.mem_map.2 ⟨segs2, List.mem_filter.2 ⟨h2, by simpa using hk2⟩, rfl⟩
  · intro e
    exact hne (congrArg stdpkg.path e)
  · rw [mainChildren_eq_appendAll]
    exact lookup_prefix_appendAll _ _ _
  · intro root importpath node m key
    rw [load_eq_appendAll]
    exact lookup_prefix_appendAll _ _ _

/-- C3 at the tree with "a/util" and "b/util" under the root "/go/src". -/
theorem same_base_name_both_kept_witness :
    ({ path := "a/util".toList, dir := "/go/src/a/util".toList } : stdpkg) ∈
        lookup (mainChildren "/go/src".toList utilTree []) "util".toList ∧
      ({ path := "b/util".toList, dir := "/go/src/b/util".toList } : stdpkg) ∈
        lookup (mainChildren "/go/src".toList utilTree []) "util".toList := by
  have h := same_base_name_both_kept "/go/src".toList utilTree (by decide) []
    ["a".toList, "util".toList] ["b".toList, "util".toList] "util".toList
    (by decide) (by decide) (by decide) (by decide) (by decide)
  exact ⟨h.1, h.2.1⟩

/-! ## The keys of the map -/

theorem keys_appendPkg (m : PkgMap) (k : GoString) (r : stdpkg) :
    keys (appendPkg m k r) = if k ∈ keys m then keys m else keys m ++ [k] := by
  induction m with
  | nil => simp [keys, appendPkg]
  | cons kv rest ih =>
    obtain ⟨k0, v⟩ := kv
    by_cases h0 : k0 = k
    · subst h0
      simp [keys, appendPkg]
    · have h1 : ¬ k = k0 := fun e => h0 e.symm
      simp only [keys] at ih
      simp only [keys, appendPkg, if_neg h0, List.map_cons, List.mem_cons, h1, false_or, ih]
      split <;> simp

theorem mem_keys_appendPkg (m : PkgMap) (k : GoString) (r : stdpkg) (x : GoString) :
    x ∈ keys (appendPkg m k r) ↔ x ∈ keys m ∨ x = k := by
  rw [keys_appendPkg]
  by_cases h : k ∈ keys m
  · rw [if_pos h]
    constructor
    · exact Or.inl
    · rintro (h1 | h1)
      · exact h1
      · exact h1 ▸ h
  · rw [if_neg h]; simp

theorem mem_keys_appendAll (t : List (GoString × stdpkg)) :
    ∀ (m : PkgMap) (x : GoString),
      x ∈ keys (appendAll m t) ↔ x ∈ keys m ∨ x ∈ t.map Prod.fst := by
  induction t with
  | nil => intro m x; simp [appendAll]
  | cons kr t ih =>
    intro m x
    rw [appendAll_cons, ih, mem_keys_appendPkg]
    simp only [List.map_cons, List.mem_cons]
    tauto

theorem nodup_keys_appendPkg (m : PkgMap) (k : GoString) (r : stdpkg)
    (h : (keys m).Nodup) : (keys (appendPkg m k r)).Nodup := by
  rw [keys_appendPkg]
  by_cases hk : k ∈ keys m
  · rw [if_pos hk]; exact h
  · rw [if_neg hk]
    exact List.Nodup.append h (List.nodup_singleton k) (by simpa using hk)

theorem nodup_keys_appendAll (t : List (GoString × stdpkg)) :
    ∀ (m : PkgMap), (keys m).Nodup → (keys (appendAll m t)).Nodup := by
  induction t with
  | nil => intro m h; exact h
  | cons kr t ih =>
    intro m h
    rw [appendAll_cons]
    exact ih _ (nodup_keys_appendPkg m kr.1 kr.2 h)

theorem mem_keys_mainChildren (R : GoString) (cs : List FileInfo)
    (hw : wellNamedList cs = true) (x : GoString) :
    x ∈ keys (mainChildren R cs []) ↔
      x ∈ (visitsRoot cs).map (fun segs => segs.getLast?.getD []) := by
  rw [mainChildren_eq_appendAll, mem_keys_appendAll, mainTrace_visits R cs hw, List.map_map]
  simp [keys, recordOf, Function.comp]

/-! ## The example tree of the specification -/

/-- C4 (amended): under any root `R`, the walk of the tree with the directories
"fmt", "net", "net/http", "vendor" and "vendor/v1" gives a map that has the key
"fmt", has the key "http" with exactly the record of import path "net/http",
and has the key "v1" with exactly the record of import path "vendor/v1": the
name "v1" starts with the letter `v`, so the test on the first character does
not pass it over. -/
theorem example_tree_mapping (R : GoString) :
    "fmt".toList ∈ keys (mainChildren R exampleTree []) ∧
      "http".toList ∈ keys (mainChildren R exampleTree []) ∧
      lookup (mainChildren R exampleTree []) "http".toList =
        [{ path := "net/http".toList, dir := filepathJoin R "net/http".toList }] ∧
      "v1".toList ∈ keys (mainChildren R exampleTree []) ∧
      lookup (mainChildren R exampleTree []) "v1".toList =
        [{ path := "vendor/v1".toList, dir := filepathJoin R "vendor/v1".toList }] := by
  have hw : wellNamedList exampleTree = true := by decide
  refine ⟨?_, ?_, ?_, ?_, ?_⟩
  · rw [mem_keys_mainChildren R _ hw]; decide
  · rw [mem_keys_mainChildren R _ hw]; decide
  · rw [lookup_mainChildren R _ hw, lookup_visits_filter]
    have : (visitsRoot exampleTree).filter
        (fun segs => decide (segs.getLast? = some "http".toList)) =
        [["net".toList, "http".toList]] := by decide
    rw [this]
    have e : relPath ["net".toList, "http".toList] = "net/http".toList := by decide
    simp only [lookup, List.nil_append, List.map_cons, List.map_nil, e]
  · rw [mem_keys_mainChildren R _ hw]; decide
  · rw [lookup_mainChildren R _ hw, lookup_visits_filter]
    have : (visitsRoot exampleTree).filter
        (fun segs => decide (segs.getLast? = some "v1".toList)) =
        [["vendor".toList, "v1".toList]] := by decide
    rw [this]
    have e : relPath ["vendor".toList, "v1".toList] = "vendor/v1".toList := by decide
    simp only [lookup, List.nil_append, List.map_cons, List.map_nil, e]

/-- C4 (as stated) fails: under the root "/go/src" the map built from the
example tree does have an entry under the key "v1". -/
theorem example_tree_has_v1 :
    ¬ ("fmt".toList ∈ keys (mainChildren "/go/src".toList exampleTree []) ∧
        (∃ r ∈ lookup (mainChildren "/go/src".toList exampleTree []) "http".toList,
          r.path = "net/http".toList) ∧
        "v1".toList ∉ keys (mainChildren "/go/src".toList exampleTree [])) := by
  decide

/-! ## Names that start with a dot or a digit -/

/-- C1 (the code at the failing input): directly under a source root, the
directories ".git" and "9p" are recorded by `main` and ".git" is descended
into, while the same two names one level further down are passed over. -/
theorem root_child_dot_digit_recorded :
    mainChildren "/go/src".toList
        [.dir ".git".toList (some [.dir "hooks".toList (some [])]),
         .dir "9p".toList (some [])] [] =
      [(".git".toList, [{ path := ".git".toList, dir := "/go/src/.git".toList }]),
       ("hooks".toList,
          [{ path := ".git/hooks".toList, dir := "/go/src/.git/hooks".toList }]),
       ("9p".toList, [{ path := "9p".toList, dir := "/go/src/9p".toList }])] ∧
      mainChildren "/go/src".toList
        [.dir "cmd".toList (some
          [.dir ".git".toList (some [.dir "hooks".toList (some [])]),
           .dir "9p".toList (some [])])] [] =
      [("cmd".toList, [{ path := "cmd".toList, dir := "/go/src/cmd".toList }])] := by
  decide

/-! ## Unreadable directories -/

theorem childrenTrace_append (root importpath : GoString) (a b : List FileInfo) :
    childrenTrace root importpath (a ++ b) =
      childrenTrace root importpath a ++ childrenTrace root importpath b := by
  induction a with
  | nil => rfl
  | cons c rest ih =>
    rw [List.cons_append, childrenTrace_cons, childrenTrace_cons, ih]
    by_cases h1 : c.name = []
    · rw [if_pos h1, if_pos h1]
    · by_cases h2 : specialFirst (c.name.headD ' ') = true
      · rw [if_neg h1, if_neg h1, if_pos h2, if_pos h2]
      · by_cases h3 : c.isDir = true
        · rw [if_neg h1, if_neg h1, if_neg h2, if_neg h2, if_pos h3, if_pos h3, List.append_assoc]
        · rw [if_neg h1, if_neg h1, if_neg h2, if_neg h2, if_neg h3, if_neg h3]

theorem mainTrace_cons (path : GoString) (c : FileInfo) (rest : List FileInfo) :
    mainTrace path (c :: rest) =
      if c.isDir then loadTrace path c.name c ++ mainTrace path rest
      else mainTrace path rest := rfl

theorem mainTrace_append (path : GoString) (a b : List FileInfo) :
    mainTrace path (a ++ b) = mainTrace path a ++ mainTrace path b := by
  induction a with
  | nil => rfl
  | cons c rest ih =>
    rw [List.cons_append, mainTrace_cons, mainTrace_cons]
    by_cases h3 : c.isDir = true
    · rw [if_pos h3, if_pos h3, ih, List.append_assoc]
    · rw [if_neg h3, if_neg h3, ih]

theorem lookup_loadChildren_split (root importpath : GoString) (pre post : List FileInfo)
    (d : FileInfo) (pkgs : PkgMap) (k : GoString) :
    lookup (loadChildren root importpath (pre ++ d :: post) pkgs) k =
      lookup pkgs k ++ lookup (loadChildren root importpath pre []) k ++
        lookup (loadChildren root importpath [d] []) k ++
        lookup (loadChildren root importpath post []) k := by
  have e : pre ++ d :: post = pre ++ ([d] ++ post) := rfl
  simp only [loadChildren_eq_appendAll, lookup_appendAll, e, childrenTrace_append,
    List.filter_append, List.map_append, lookup, List.nil_append, List.append_assoc]

theorem lookup_mainChildren_split (path : GoString) (pre post : List FileInfo)
    (d : FileInfo) (pkgs : PkgMap) (k : GoString) :
    lookup (mainChildren path (pre ++ d :: post) pkgs) k =
      lookup pkgs k ++ lookup (mainChildren path pre []) k ++
        lookup (mainChildren path [d] []) k ++
        lookup (mainChildren path post []) k := by
  have e : pre ++ d :: post = pre ++ ([d] ++ post) := rfl
  simp only [mainChildren_eq_appendAll, lookup_appendAll, e, mainTrace_append,
    List.filter_append, List.map_append, lookup, List.nil_append, List.append_assoc]

theorem walk_append (a b : List (GoString × Option (List FileInfo))) :
    ∀ (s : State), walk (a ++ b) s = walk b (walk a s) := by
  induction a with
  | nil => intro s; rfl
  | cons p rest ih =>
    intro s
    obtain ⟨path, l⟩ := p
    cases l with
    | none => exact ih _
    | some cs => exact ih _

theorem walk_pkgs_congr (roots : List (GoString × Option (List FileInfo))) :
    ∀ (s t : State), s.pkgs = t.pkgs → (walk roots s).pkgs = (walk roots t).pkgs := by
  induction roots with
  | nil => intro s t h; exact h
  | cons p rest ih =>
    intro s t h
    obtain ⟨path, l⟩ := p
    cases l with
    | none => simp only [walk]; exact ih _ _ h
    | some cs => simp only [walk]; exact ih _ _ (by simp [h])

/-- C8: the walk is a total function, so it always completes with a map, and an
unreadable directory does not change what its siblings contribute.  In a
listing `pre ++ d :: post`, in `load` as in `main`, the records found under
any key after the loop are those present before, followed by what `pre`, `d`
and `post` each contribute on their own; this holds for `d` unreadable and for
`d` readable with any listing `L`, so the contributions of `pre` and `post` are
the same in both cases.  A source root that cannot be read leaves the map as if
the root were not in the list. -/
theorem unreadable_directory_skipped (root importpath n : GoString)
    (pre post L : List FileInfo) (pkgs : PkgMap) (k : GoString)
    (rpre rpost : List (GoString × Option (List FileInfo))) (s : State) :
    lookup (loadChildren root importpath (pre ++ .dir n none :: post) pkgs) k =
        lookup pkgs k ++ lookup (loadChildren root importpath pre []) k ++
          lookup (loadChildren root importpath [.dir n none] []) k ++
          lookup (loadChildren root importpath post []) k ∧
      lookup (loadChildren root importpath (pre ++ .dir n (some L) :: post) pkgs) k =
        lookup pkgs k ++ lookup (loadChildren root importpath pre []) k ++
          lookup (loadChildren root importpath [.dir n (some L)] []) k ++
          lookup (loadChildren root importpath post []) k ∧
      lookup (mainChildren root (pre ++ .dir n none :: post) pkgs) k =
        lookup pkgs k ++ lookup (mainChildren root pre []) k ++
          lookup (mainChildren root [.dir n none] []) k ++
          lookup (mainChildren root post []) k ∧
      lookup (mainChildren root (pre ++ .dir n (some L) :: post) pkgs) k =
        lookup pkgs k ++ lookup (mainChildren root pre []) k ++
          lookup (mainChildren root [.dir n (some L)] []) k ++
          lookup (mainChildren root post []) k ∧
      (walk (rpre ++ (root, none) :: rpost) s).pkgs = (walk (rpre ++ rpost) s).pkgs :=
  ⟨lookup_loadChildren_split _ _ _ _ _ _ _, lookup_loadChildren_split _ _ _ _ _ _ _,
    lookup_mainChildren_split _ _ _ _ _ _, lookup_mainChildren_split _ _ _ _ _ _, by
      rw [walk_append, walk_append]
      simp only [walk]
      exact walk_pkgs_congr _ _ _ rfl⟩

/-! ## The log -/

theorem walk_log (roots : List (GoString × Option (List FileInfo))) :
    ∀ (s : State),
      (walk roots s).log =
        s.log ++ (roots.filter (fun p => p.2.isNone)).map Prod.fst := by
  induction roots with
  | nil => intro s; simp [walk]
  | cons p rest ih =>
    intro s
    obtain ⟨path, l⟩ := p
    cases l with
    | none => simp [walk, ih]
    | some cs => simp [walk, ih]

theorem walk_pkgs_filter (roots : List (GoString × Option (List FileInfo))) :
    ∀ (s : State),
      (walk roots s).pkgs = (walk (roots.filter (fun p => p.2.isSome)) s).pkgs := by
  induction roots with
  | nil => intro s; rfl
  | cons p rest ih =>
    intro s
    obtain ⟨path, l⟩ := p
    cases l with
    | none =>
      simp only [walk, List.filter_cons, Option.isSome_none, Bool.false_eq_true, if_false]
      rw [ih]
      exact walk_pkgs_congr _ _ _ rfl
    | some cs =>
      simp only [walk, List.filter_cons, Option.isSome_some, if_true]
      rw [ih]

theorem loadChildren_append (root importpath : GoString) (a b : List FileInfo)
    (pkgs : PkgMap) :
    loadChildren root importpath (a ++ b) pkgs =
      loadChildren root importpath b (loadChildren root importpath a pkgs) := by
  simp only [loadChildren_eq_appendAll, childrenTrace_append, appendAll_append]

/-- C10 (amended): the log holds exactly one line for every source root whose
opening or listing failed, in order, and nothing else, and such a root leaves
the map as if it were not in the list; a subdirectory that `load` cannot open
or list adds no log line: `load` stores the record of the directory and
returns, and the loop that called it goes on with the entries that follow. -/
theorem unreadable_root_logged_subdirectory_silent
    (roots : List (GoString × Option (List FileInfo))) (s : State)
    (root importpath n : GoString) (pre post : List FileInfo) (pkgs : PkgMap) :
    (walk roots s).log = s.log ++ (roots.filter (fun p => p.2.isNone)).map Prod.fst ∧
      (walk roots s).pkgs = (walk (roots.filter (fun p => p.2.isSome)) s).pkgs ∧
      load root importpath (.dir n none) pkgs =
        (if pathBase importpath = "testdata".toList then pkgs
         else appendPkg pkgs (pathBase importpath)
           { path := importpath, dir := filepathJoin root importpath }) ∧
      loadChildren root importpath (pre ++ .dir n none :: post) pkgs =
        loadChildren root importpath post
          (loadChildren root importpath [.dir n none]
            (loadChildren root importpath pre pkgs)) := by
  refine ⟨walk_log roots s, walk_pkgs_filter roots s, rfl, ?_⟩
  have e : pre ++ FileInfo.dir n none :: post = pre ++ ([FileInfo.dir n none] ++ post) := rfl
  rw [e, loadChildren_append, loadChildren_append]

/-- C10 (as stated) fails: the directory "fmt" under the root "/go/src" cannot
be listed, the walk stores its record and goes on to "net", and the log stays
empty. -/
theorem unreadable_subdirectory_not_logged :
    walk [("/go/src".toList,
        some [.dir "fmt".toList none, .dir "net".toList (some [])])] { pkgs := [], log := [] } =
      { pkgs :=
          [("fmt".toList, [{ path := "fmt".toList, dir := "/go/src/fmt".toList }]),
           ("net".toList, [{ path := "net".toList, dir := "/go/src/net".toList }])],
        log := [] } := by
  decide

/-! ## The sorted key list -/

theorem sortStrings_perm (ks : List GoString) : (sortStrings ks).Perm ks :=
  List.perm_insertionSort _ ks

theorem sortStrings_sorted (ks : List GoString) :
    (sortStrings ks).Sorted (fun a b => a ≤ b) :=
  List.sorted_insertionSort _ ks

theorem sortStrings_eq_of_perm (ks1 ks2 : List GoString) (h : ks1.Perm ks2) :
    sortStrings ks1 = sortStrings ks2 := by
  apply List.eq_of_perm_of_sorted (r := fun (a b : GoString) => a ≤ b)
  · exact (sortStrings_perm ks1).trans (h.trans (sortStrings_perm ks2).symm)
  · exact sortStrings_sorted ks1
  · exact sortStrings_sorted ks2

theorem nodup_keys_mainChildren (path : GoString) (cs : List FileInfo) (m : PkgMap)
    (h : (keys m).Nodup) : (keys (mainChildren path cs m)).Nodup := by
  rw [mainChildren_eq_appendAll]
  exact nodup_keys_appendAll _ m h

theorem nodup_keys_walk (roots : List (GoString × Option (List FileInfo))) :
    ∀ (s : State), (keys s.pkgs).Nodup → (keys (walk roots s).pkgs).Nodup := by
  induction roots with
  | nil => intro s h; exact h
  | cons p rest ih =>
    intro s h
    obtain ⟨path, l⟩ := p
    cases l with
    | none => exact ih _ h
    | some cs => exact ih _ (nodup_keys_mainChildren path cs s.pkgs h)

/-- C5: for the map accumulated by the walk of any list of source roots, and
for any order `enum` in which `range pkgs` delivers its keys, the key list
after `sort.Strings` is a permutation of the keys of the map, has no
duplicates and is strictly ascending in the lexicographic order of the strings;
the text from the opening line of the map to its closing brace is the
concatenation of one entry per key, in that order. -/
theorem keys_sorted_before_entries (roots : List (GoString × Option (List FileInfo)))
    (tbl : Char → Bool) (enum : List GoString)
    (h : enum.Perm (keys (walk roots { pkgs := [], log := [] }).pkgs)) :
    (sortStrings enum).Perm (keys (walk roots { pkgs := [], log := [] }).pkgs) ∧
      (sortStrings enum).Nodup ∧
      (sortStrings enum).Sorted (fun a b => a < b) ∧
      (entries tbl (walk roots { pkgs := [], log := [] }).pkgs (sortStrings enum)).length =
        (keys (walk roots { pkgs := [], log := [] }).pkgs).length ∧
      printed tbl (walk roots { pkgs := [], log := [] }).pkgs enum =
        preamble ++ "var stdpkgs = map[string][]stdpkg\x7b\n".toList ++
          ((sortStrings enum).map
            (entry tbl (walk roots { pkgs := [], log := [] }).pkgs)).flatten ++
          "\x7d".toList := by
  have hp : (sortStrings enum).Perm (keys (walk roots { pkgs := [], log := [] }).pkgs) :=
    (sortStrings_perm enum).trans h
  have hnd : (sortStrings enum).Nodup :=
    hp.nodup_iff.2 (nodup_keys_walk roots _ List.nodup_nil)
  refine ⟨hp, hnd, ?_, ?_, rfl⟩
  · exact (sortStrings_sorted enum).lt_of_le hnd
  · simp only [entries, List.length_map]
    exact hp.length_eq

/-- C5 at the example tree, with the keys delivered in the order
"v1", "net", "fmt", "vendor", "http". -/
theorem keys_sorted_before_entries_witness :
    (sortStrings ["v1".toList, "net".toList, "fmt".toList, "vendor".toList, "http".toList]).Sorted
      (fun a b => a < b) :=
  (keys_sorted_before_entries [("/go/src".toList, some exampleTree)] (fun _ => true)
    ["v1".toList, "net".toList, "fmt".toList, "vendor".toList, "http".toList]
    (by decide)).2.2.1

/-- C6: two runs on the same source roots with the same listings build the same
map, and whatever the orders `enum1` and `enum2` in which `range pkgs` delivers
the keys in the two runs, the text handed to `format.Source` is the same, and
so are the content written to the output file and the whole result of `main`. -/
theorem output_independent_of_map_order (fmt : GoString → Option GoString)
    (tbl : Char → Bool) (goroot : GoString)
    (roots : List (GoString × Option (List FileInfo))) (enum1 enum2 : List GoString)
    (h1 : enum1.Perm (keys (walk roots { pkgs := [], log := [] }).pkgs))
    (h2 : enum2.Perm (keys (walk roots { pkgs := [], log := [] }).pkgs)) :
    source tbl goroot (walk roots { pkgs := [], log := [] }).pkgs enum1 =
        source tbl goroot (walk roots { pkgs := [], log := [] }).pkgs enum2 ∧
      output fmt tbl goroot (walk roots { pkgs := [], log := [] }).pkgs enum1 =
        output fmt tbl goroot (walk roots { pkgs := [], log := [] }).pkgs enum2 ∧
      main fmt tbl goroot roots enum1 = main fmt tbl goroot roots enum2 := by
  have e : sortStrings enum1 = sortStrings enum2 :=
    sortStrings_eq_of_perm enum1 enum2 (h1.trans h2.symm)
  have hs : source tbl goroot (walk roots { pkgs := [], log := [] }).pkgs enum1 =
      source tbl goroot (walk roots { pkgs := [], log := [] }).pkgs enum2 := by
    simp only [source, printed, e]
  exact ⟨hs, by simp only [output, hs], by simp only [main, output, hs]⟩

/-- C6 at the example tree, for two orders of the five keys. -/
theorem output_independent_of_map_order_witness :
    source (fun _ => true) "/go".toList
        (walk [("/go/src".toList, some exampleTree)] { pkgs := [], log := [] }).pkgs
        ["v1".toList, "net".toList, "fmt".toList, "vendor".toList, "http".toList] =
      source (fun _ => true) "/go".toList
        (walk [("/go/src".toList, some exampleTree)] { pkgs := [], log := [] }).pkgs
        ["http".toList, "vendor".toList, "v1".toList, "fmt".toList, "net".toList] :=
  (output_independent_of_map_order (fun s => some s) (fun _ => true) "/go".toList
    [("/go/src".toList, some exampleTree)]
    ["v1".toList, "net".toList, "fmt".toList, "vendor".toList, "http".toList]
    ["http".toList, "vendor".toList, "v1".toList, "fmt".toList, "net".toList]
    (by decide) (by decide)).1

/-! ## `bytes.Replace` without a limit -/

theorem replaceLoop_nil (old new : GoString) (n : Option Nat) (skip : Nat) :
    replaceLoop old new n skip [] = [] := by
  cases n with
  | none => cases skip <;> rfl
  | some m => cases m <;> cases skip <;> rfl

theorem replaceLoop_skip (old new : GoString) (n : Option Nat) (skip : Nat) (c : Char)
    (cs : GoString) :
    replaceLoop old new n (skip + 1) (c :: cs) = replaceLoop old new n skip cs := by
  cases n with
  | none => rfl
  | some m => cases m <;> rfl

theorem replaceLoop_none_zero (old new : GoString) (c : Char) (cs : GoString) :
    replaceLoop old new none 0 (c :: cs) =
      if old.isPrefixOf (c :: cs) then new ++ replaceLoop old new none (old.length - 1) cs
      else c :: replaceLoop old new none 0 cs := rfl

theorem replaceLoop_drop (old new : GoString) (n : Option Nat) (xs ys : GoString) :
    replaceLoop old new n xs.length (xs ++ ys) = replaceLoop old new n 0 ys := by
  induction xs with
  | nil => rfl
  | cons x xs ih =>
    rw [List.length_cons, List.cons_append, replaceLoop_skip, ih]

theorem replaceLoop_match (old new b : GoString) (h : old ≠ []) :
    replaceLoop old new none 0 (old ++ b) = new ++ replaceLoop old new none 0 b := by
  cases old with
  | nil => exact absurd rfl h
  | cons c cs =>
    have hp : (c :: cs).isPrefixOf (c :: (cs ++ b)) = true := by
      rw [List.isPrefixOf_iff_prefix]
      exact List.prefix_append (c :: cs) b
    rw [List.cons_append, replaceLoop_none_zero, if_pos hp]
    have : (c :: cs).length - 1 = cs.length := by simp
    rw [this, replaceLoop_drop]

theorem replaceLoop_no_match (old new : GoString) (c : Char) (cs : GoString)
    (h : ¬ old <+: c :: cs) :
    replaceLoop old new none 0 (c :: cs) = c :: replaceLoop old new none 0 cs := by
  have hp : ¬ old.isPrefixOf (c :: cs) = true := by
    rw [List.isPrefixOf_iff_prefix]; exact h
  rw [replaceLoop_none_zero, if_neg hp]

theorem replaceLoop_absent (old new : GoString) :
    ∀ (s : GoString), ¬ old <:+: s → replaceLoop old new none 0 s = s := by
  intro s
  induction s with
  | nil => intro _; rfl
  | cons c cs ih =>
    intro h
    rw [replaceLoop_no_match old new c cs (fun hp => h hp.isInfix)]
    rw [ih (fun hi => h (hi.trans (List.suffix_cons c cs).isInfix))]

theorem replaceLoop_first (old new : GoString) (h : old ≠ []) (b : GoString) :
    ∀ (a : GoString), ¬ old <:+: a ++ old.dropLast →
      replaceLoop old new none 0 (a ++ old ++ b) = a ++ new ++ replaceLoop old new none 0 b := by
  intro a
  induction a with
  | nil => intro _; simpa using replaceLoop_match old new b h
  | cons c a ih =>
    intro hno
    have hsplit : old = old.dropLast ++ [old.getLast h] :=
      (List.dropLast_append_getLast h).symm
    have hnp : ¬ old <+: c :: (a ++ old ++ b) := by
      intro hp
      apply hno
      have e : c :: (a ++ old ++ b) = (c :: a ++ old.dropLast) ++ ([old.getLast h] ++ b) := by
        conv_lhs => rw [hsplit]
        simp
      rw [e] at hp
      have hlen : old.length ≤ (c :: a ++ old.dropLast).length := by
        simp only [List.length_append, List.length_cons, List.length_dropLast]
        have : 0 < old.length := List.length_pos.2 h
        omega
      exact (List.prefix_of_prefix_length_le hp (List.prefix_append _ _) hlen).isInfix
    have hrest : ¬ old <:+: a ++ old.dropLast := by
      intro hi
      apply hno
      exact hi.trans (List.suffix_cons c (a ++ old.dropLast)).isInfix
    have e2 : c :: a ++ old ++ b = c :: (a ++ old ++ b) := by simp
    rw [e2, replaceLoop_no_match old new c _ hnp, ih hrest]
    simp

theorem prefix_before_absent_char (old p r : GoString) (q : Char) (hq : q ∉ old)
    (hp : old <+: p ++ q :: r) : old <+: p := by
  by_cases hlen : old.length ≤ p.length
  · exact List.prefix_of_prefix_length_le hp (List.prefix_append _ _) hlen
  · exfalso
    apply hq
    have e : p ++ q :: r = (p ++ [q]) ++ r := by simp
    rw [e] at hp
    have h2 : p ++ [q] <+: old := by
      apply List.prefix_of_prefix_length_le (List.prefix_append _ _) hp
      simp only [List.length_append, List.length_singleton]
      omega
    exact h2.subset (by simp)

theorem replaceLoop_before_quote (old new post : GoString) (q : Char) (h : old ≠ [])
    (hq : q ∉ old) :
    ∀ (pre : GoString) (skip : Nat), skip ≤ pre.length →
      replaceLoop old new none skip (pre ++ q :: (old ++ post)) =
        replaceLoop old new none skip pre ++ q :: (new ++ replaceLoop old new none 0 post) := by
  intro pre
  induction pre with
  | nil =>
    intro skip hs
    have : skip = 0 := by simpa using hs
    subst this
    have hnp : ¬ old <+: q :: (old ++ post) := by
      intro hp
      cases old with
      | nil => exact h rfl
      | cons c cs =>
        have := List.cons_prefix_cons.1 hp
        exact hq (by simp [this.1])
    rw [List.nil_append, replaceLoop_no_match old new q _ hnp, replaceLoop_match old new post h,
      replaceLoop_nil, List.nil_append]
  | cons c pre ih =>
    intro skip hs
    cases skip with
    | succ s =>
      rw [List.cons_append, replaceLoop_skip, replaceLoop_skip]
      exact ih s (by simpa using hs)
    | zero =>
      rw [List.cons_append]
      by_cases hp : old <+: c :: (pre ++ q :: (old ++ post))
      · have hp2 : old <+: c :: pre := by
          apply prefix_before_absent_char old (c :: pre) (old ++ post) q hq
          simpa using hp
        have b1 : old.isPrefixOf (c :: (pre ++ q :: (old ++ post))) = true :=
          List.isPrefixOf_iff_prefix.2 hp
        have b2 : old.isPrefixOf (c :: pre) = true := List.isPrefixOf_iff_prefix.2 hp2
        rw [replaceLoop_none_zero, if_pos b1, replaceLoop_none_zero, if_pos b2]
        have hl : old.length - 1 ≤ pre.length := by
          have := hp2.length_le
          simp only [List.length_cons] at this
          omega
        rw [ih _ hl, List.append_assoc]
      · have hp2 : ¬ old <+: c :: pre := by
          intro hp3
          apply hp
          have : c :: pre <+: c :: (pre ++ q :: (old ++ post)) := by
            rw [← List.cons_append]; exact List.prefix_append _ _
          exact hp3.trans this
        rw [replaceLoop_no_match old new c _ hp, replaceLoop_no_match old new c _ hp2,
          ih 0 (Nat.zero_le _), List.cons_append]

theorem replaceRoot_eq (root src : GoString) (h : root ≠ []) :
    replaceRoot root src = replaceLoop root "/go".toList none 0 src := by
  simp [replaceRoot, bytesReplace, h]

/-- What the root pass does on the text that reaches it: for every text and
every non-empty root path, the pass that replaces the root path by "/go"
replaces every occurrence found by the scan from the left: a text without the root path is returned as it is, and a text
`a ++ root ++ b` in which this is the first occurrence becomes `a`, then "/go",
then the result of the pass on `b`.  In particular an occurrence of the root
path that directly follows a double quote, which is where `%#v` puts the
directory of a record, is replaced by "/go" when the root path holds no double
quote. -/
theorem root_replaced_everywhere (root src : GoString) (hroot : root ≠ []) :
    (¬ root <:+: src → replaceRoot root src = src) ∧
      (∀ a b : GoString, src = a ++ root ++ b → ¬ root <:+: a ++ root.dropLast →
        replaceRoot root src = a ++ "/go".toList ++ replaceRoot root b) ∧
      (∀ pre post : GoString, dquote ∉ root → src = pre ++ dquote :: (root ++ post) →
        replaceRoot root src =
          replaceRoot root pre ++ dquote :: ("/go".toList ++ replaceRoot root post)) := by
  refine ⟨?_, ?_, ?_⟩
  · intro h
    rw [replaceRoot_eq root src hroot]
    exact replaceLoop_absent root _ src h
  · intro a b hs hfirst
    rw [hs, replaceRoot_eq root _ hroot, replaceRoot_eq root b hroot]
    exact replaceLoop_first root _ hroot b a hfirst
  · intro pre post hq hs
    rw [hs, replaceRoot_eq root _ hroot, replaceRoot_eq root pre hroot,
      replaceRoot_eq root post hroot]
    exact replaceLoop_before_quote root _ post dquote hroot hq pre 0 (Nat.zero_le _)

/-- The root pass at the root path "/usr/local/go" and the text of one directory field. -/
theorem root_replaced_everywhere_witness :
    replaceRoot "/usr/local/go".toList
        ("dir:".toList ++ dquote :: ("/usr/local/go".toList ++ "/src/fmt".toList)) =
      replaceRoot "/usr/local/go".toList "dir:".toList ++
        dquote :: ("/go".toList ++ replaceRoot "/usr/local/go".toList "/src/fmt".toList) :=
  (root_replaced_everywhere "/usr/local/go".toList
    ("dir:".toList ++ dquote :: ("/usr/local/go".toList ++ "/src/fmt".toList))
    (by decide)).2.2 "dir:".toList "/src/fmt".toList (by decide) rfl

set_option maxRecDepth 200000

/-- C7 (the code at the failing input): with the root path "/main.stdpkg" the
directory of the record of "fmt" is "/main.stdpkg/src/fmt", which starts with
the root path, but the pass that removes the type qualification runs first and
turns "main.stdpkg" into "stdpkg" inside the directory string, so the pass that
replaces the root path finds nothing and the directory is emitted as
"/stdpkg/src/fmt" instead of "/go/src/fmt". -/
theorem root_path_holding_type_name_not_replaced :
    "/main.stdpkg".toList.isPrefixOf "/main.stdpkg/src/fmt".toList = true ∧
      (walk [("/main.stdpkg/src".toList, some [.dir "fmt".toList (some [])])]
          { pkgs := [], log := [] }).pkgs =
        [("fmt".toList, [{ path := "fmt".toList, dir := "/main.stdpkg/src/fmt".toList }])] ∧
      source (fun _ => true) "/main.stdpkg".toList
          (walk [("/main.stdpkg/src".toList, some [.dir "fmt".toList (some [])])]
            { pkgs := [], log := [] }).pkgs ["fmt".toList] =
        preamble ++
          ("var stdpkgs = map[string][]stdpkg\x7b\n" ++
           "\x22fmt\x22: \x7b\n" ++
           "\x7bpath:\x22fmt\x22, dir:\x22/stdpkg/src/fmt\x22\x7d\x7d,\n" ++
           "\x7d").toList := by
  decide

/-! ## The emitted text and the map -/

/-- C9 (the code at the failing input): with the root path "/build" and the
directories "go" and "go/build" under "/build/src", the map holds the record
with import path "go/build" and directory "/build/src/go/build", and the text
handed to the formatter gives, under the key "build", the import path "go/go"
and the directory "/go/src/go/go": the pass that replaces the root path has
rewritten the import path and the end of the directory. -/
theorem import_path_rewritten_by_root_pass :
    (walk [("/build/src".toList,
          some [.dir "go".toList (some [.dir "build".toList (some [])])])]
        { pkgs := [], log := [] }).pkgs =
      [("go".toList, [{ path := "go".toList, dir := "/build/src/go".toList }]),
       ("build".toList,
          [{ path := "go/build".toList, dir := "/build/src/go/build".toList }])] ∧
      source (fun _ => true) "/build".toList
          (walk [("/build/src".toList,
              some [.dir "go".toList (some [.dir "build".toList (some [])])])]
            { pkgs := [], log := [] }).pkgs ["go".toList, "build".toList] =
        preamble ++
          ("var stdpkgs = map[string][]stdpkg\x7b\n" ++
           "\x22build\x22: \x7b\n" ++
           "\x7bpath:\x22go/go\x22, dir:\x22/go/src/go/go\x22\x7d\x7d,\n" ++
           "\x22go\x22: \x7b\n" ++
           "\x7bpath:\x22go\x22, dir:\x22/go/src/go\x22\x7d\x7d,\n" ++
           "\x7d").toList := by
  decide

end Generate
